import Mathlib

/-!
Shallow embedding of the multi-base codec / identifier engine of the
repository (Raycast developer-utility extension).  Byte strings are
`List Nat` with every element `< 256`; text is `List Char` (or `String`
where the comparison claim needs it).  JavaScript `BigInt` arithmetic is
embedded as `Nat` / `Int` arithmetic; `BigInt` division truncates toward
zero, which is `Int.tdiv` here.
-/

/-- JS whitespace as relevant to the codec inputs (the `\s` class restricted
to the ASCII range; the source strings contain only ASCII). -/
def isJsSpace (c : Char) : Bool :=
  c = ' ' || c = '\t' || c = '\n' || c = '\r' || c = '\x0b' || c = '\x0c'

/-- Big-endian positional value of a digit list: the Horner fold
`value = value * base + digit` used throughout the source
(`parseBigInt`, `decodeUlidTime`, base-58/62 folds). -/
def hornerVal (b : Nat) (l : List Nat) : Nat :=
  l.foldl (fun acc d => acc * b + d) 0

/-- Little-endian digits of `n` in base `b`, by repeated div/mod, with
explicit structural fuel so that the kernel can evaluate it.  For
`fuel ≥ n` and `b ≥ 2` this agrees with `Nat.digits` (proved below). -/
def digitsLEAux (b : Nat) : Nat → Nat → List Nat
  | 0, _ => []
  | fuel + 1, n => if n = 0 then [] else n % b :: digitsLEAux b fuel (n / b)

/-- Little-endian base-`b` digits of `n` (empty for `n = 0`), the
`while (value > 0) { divmod }` loop of the source formatters. -/
def digitsLE (b n : Nat) : List Nat :=
  digitsLEAux b n n

/-- The 36-digit alphabet of `parseBigInt`:
`"0123456789abcdefghijklmnopqrstuvwxyz"`. -/
def digitChars : List Char := "0123456789abcdefghijklmnopqrstuvwxyz".toList

/-- `digits.indexOf(char)` of the source.  `List.indexOf` returns the list
length (36) when the character is absent, so the source's
`digit < 0 || digit >= base` test collapses to `digit >= base` here,
because every base is at most 36. -/
def digitVal (c : Char) : Nat := digitChars.indexOf c

/-- Digit-value-to-character map used when formatting (`toString(radix)`
produces lower-case digits from the same alphabet). -/
def digitChar (d : Nat) : Char := digitChars.getD d '*'

/-- Error categories of the spec's BigBaseCodec contract.  The source
throws `Error("Invalid number")` for both the empty and the bad-digit
case and `Error("Unsupported base")` for a base outside 2..36; the
constructors record which of the three checks fired. -/
inductive ParseErr
  | emptyInput
  | invalidDigit
  | unsupportedBase
deriving DecidableEq, Repr

/-- The digit loop of `parseBigInt`: Horner accumulation
`value = value * BigInt(base) + BigInt(digit)`, aborting on the first
character whose digit value is not below `base`. -/
def parseDigitsAux (base : Nat) (acc : Nat) : List Char → Except ParseErr Nat
  | [] => .ok acc
  | c :: rest =>
    if digitVal c < base then parseDigitsAux base (acc * base + digitVal c) rest
    else .error .invalidDigit

/-- `parseBigInt(input, base)` from the source: trim and strip all
whitespace, lower-case, reject the empty string, reject a base outside
2..36, then Horner-accumulate the digit values. -/
def parseBigInt (input : List Char) (base : Nat) : Except ParseErr Nat :=
  let clean := (input.filter (fun c => !isJsSpace c)).map Char.toLower
  if clean.isEmpty then .error .emptyInput
  else if base < 2 || 36 < base then .error .unsupportedBase
  else parseDigitsAux base 0 clean

/-- JS `BigInt.prototype.toString(radix)`: lower-case digits, `"0"` for
zero, otherwise the base-`radix` digits most-significant first. -/
def formatBigInt (n base : Nat) : List Char :=
  if n = 0 then ['0'] else ((digitsLE base n).map digitChar).reverse

/-- Modelled from the spec: the format's defined normalization of a digit
string — lower-case digits and no whitespace (the same cleaning step
`parseBigInt` applies to its input). -/
def normalizeDigits (s : List Char) : List Char :=
  (s.filter (fun c => !isJsSpace c)).map Char.toLower

/-- `bytesToHex`: each byte becomes `toString(16).padStart(2, "0")`, i.e.
two lower-case hex characters, high nibble first. -/
def bytesToHex (bytes : List Nat) : List Char :=
  bytes.flatMap (fun b => [digitChar (b / 16), digitChar (b % 16)])

/-- The character class `[0-9a-fA-F]` of the `hexToBytes` validation
regex. -/
def isHexDigitChar (c : Char) : Bool :=
  ('0' ≤ c && c ≤ '9') || ('a' ≤ c && c ≤ 'f') || ('A' ≤ c && c ≤ 'F')

/-- `input.replace(/0x/gi, "")`: delete every (leftmost, non-overlapping)
occurrence of `0x` or `0X`. -/
def strip0x : List Char → List Char
  | [] => []
  | [c] => [c]
  | c₁ :: c₂ :: rest =>
    if c₁ = '0' ∧ (c₂ = 'x' ∨ c₂ = 'X') then strip0x rest
    else c₁ :: strip0x (c₂ :: rest)

/-- `Number.parseInt(h, 16)` on a single hex digit: case-insensitive hex
digit value. -/
def hexVal (c : Char) : Nat := digitVal c.toLower

/-- The `normalized.match(/.{2}/g)` + `Number.parseInt(h, 16)` step of
`hexToBytes`: consume the characters two at a time as one byte each
(a trailing lone character — impossible after the even-length
normalization — would be dropped, as `match` only returns full pairs). -/
def hexPairsToBytes : List Char → List Nat
  | c₁ :: c₂ :: rest => (hexVal c₁ * 16 + hexVal c₂) :: hexPairsToBytes rest
  | _ => []

inductive HexErr
  | invalidHex
deriving DecidableEq, Repr

/-- `hexToBytes`: strip `0x` markers and whitespace, accept the empty
string as zero bytes, reject any non-hex character, left-pad an
odd-length string with one `0` nibble, then parse byte pairs. -/
def hexToBytes (input : List Char) : Except HexErr (List Nat) :=
  let clean := (strip0x input).filter (fun c => !isJsSpace c)
  if clean.isEmpty then .ok []
  else if clean.all isHexDigitChar then
    .ok (hexPairsToBytes (if clean.length % 2 = 0 then clean else '0' :: clean))
  else .error .invalidHex

/-- The Bitcoin Base58 alphabet (spec §6.1): digits `0`, `O`, `I`, `l`
excluded. -/
def alphabet58 : List Char :=
  "123456789ABCDEFGHJKLMNPQRSTUVWXYZabcdefghijkmnopqrstuvwxyz".toList

def char58 (d : Nat) : Char := alphabet58.getD d '1'

def val58 (c : Char) : Nat := alphabet58.indexOf c

inductive Base58Err
  | invalidBase58
deriving DecidableEq, Repr

/-- Modelled from the spec: `base58.encode` of the `@scure/base` library
(a dependency, not repository code) — leading zero bytes become leading
`'1'` characters, the remainder is the big-integer value of the bytes
written in base 58, most significant digit first. -/
def b58encode (bytes : List Nat) : List Char :=
  List.replicate ((bytes.takeWhile (fun b => b == 0)).length) '1' ++
    (digitsLE 58 (hornerVal 256 bytes)).reverse.map char58

/-- Modelled from the spec: `base58.decode` of the `@scure/base` library —
reject any character outside the alphabet, otherwise Horner-accumulate
the digit values in base 58 and re-expand in base 256, restoring one
leading zero byte per leading `'1'` character. -/
def b58decode (s : List Char) : Except Base58Err (List Nat) :=
  if s.all (fun c => alphabet58.contains c) then
    .ok (List.replicate ((s.takeWhile (fun c => c == '1')).length) 0 ++
      (digitsLE 256 (hornerVal 58 (s.map val58))).reverse)
  else .error .invalidBase58

/-- JS `String.prototype.trim()` restricted to the codec inputs: remove
leading and trailing whitespace. -/
def jsTrim (l : List Char) : List Char :=
  ((l.dropWhile isJsSpace).reverse.dropWhile isJsSpace).reverse

/-- A digest function suitable for `doubleSha256`: 32-byte output of
genuine bytes.  SHA-256 itself is an external collaborator (WebCrypto),
so it stays an abstract parameter constrained by this predicate. -/
def DigestSpec (digest : List Nat → List Nat) : Prop :=
  ∀ bs, (digest bs).length = 32 ∧ ∀ b ∈ digest bs, b < 256

/-- Result shape of `base58check-decode`: the payload plus the checksum
verdict. -/
structure CheckedResult where
  payload : List Nat
  valid : Bool
deriving DecidableEq, Repr

inductive Base58CheckErr
  | invalidBase58
  | tooShort
deriving DecidableEq, Repr

/-- `base58check-encode`: append the first 4 bytes of the double digest
of the payload, then Base58-encode. -/
def base58checkEncode (digest : List Nat → List Nat) (input : List Nat) :
    List Char :=
  b58encode (input ++ (digest (digest input)).take 4)

/-- `base58check-decode`: Base58-decode the trimmed text (decoding errors
become `invalidBase58`, the source's "Invalid Base58Check string"); fewer
than 5 decoded bytes is `tooShort` ("Invalid Base58Check payload");
otherwise split the last 4 bytes off as the checksum, recompute the
double digest of the payload, and report the comparison (done on the hex
strings in the source) as `valid` — never as an error.  `base58checkBody`
is the part after the Base58 decode succeeded. -/
def base58checkBody (digest : List Nat → List Nat) (decoded : List Nat) :
    Except Base58CheckErr CheckedResult :=
  if decoded.length < 5 then .error .tooShort
  else
    .ok ⟨decoded.take (decoded.length - 4),
      bytesToHex (decoded.drop (decoded.length - 4)) ==
        bytesToHex ((digest (digest (decoded.take (decoded.length - 4)))).take 4)⟩

def base58checkDecode (digest : List Nat → List Nat) (text : List Char) :
    Except Base58CheckErr CheckedResult :=
  match b58decode (jsTrim text) with
  | .error _ => .error .invalidBase58
  | .ok decoded => base58checkBody digest decoded

/-- A stand-in digest used only to instantiate the digest-parameterized
theorems on concrete inputs: constant 32-byte output `[0, …, 31]`. -/
def constDigest : List Nat → List Nat := fun _ => List.range 32

/-- `generateSnowflake(workerId, epoch)` for a clock reading `now` and a
drawn `sequence`: `timestamp = BigInt(Date.now() - epoch) &
0x1fffffffffffffn` (a BigInt AND with `2^53 - 1` is the non-negative
remainder mod `2^53`, also for a negative difference, hence the `Int`
detour); `worker = BigInt(workerId & 0x3ff)` (the 32-bit AND keeps the
low 10 bits, i.e. `workerId mod 1024` for the model's non-negative
worker ids); `sequence = floor(random() * 4096)` is a parameter here. -/
def generateSnowflake (now epoch workerId sequence : Nat) : Nat :=
  let timestamp := (((now : Int) - (epoch : Int)) % (2 ^ 53 : Int)).toNat
  let worker := workerId % 1024
  (timestamp <<< 22) ||| (worker <<< 12) ||| sequence

/-- Modelled from the spec (the formula claim C4 states): timestamp
shifted by 22, worker id mod 1024 shifted by 12, sequence — with no
53-bit mask on the timestamp. -/
def snowflakeClaimFormula (now epoch workerId sequence : Nat) : Nat :=
  ((now - epoch) <<< 22) ||| ((workerId % 1024) <<< 12) ||| sequence

/-- The base-62 alphabet of `base62Encode`. -/
def alphabet62 : List Char :=
  "0123456789ABCDEFGHIJKLMNOPQRSTUVWXYZabcdefghijklmnopqrstuvwxyz".toList

def char62 (d : Nat) : Char := alphabet62.getD d '0'

/-- `base62Encode`: fold the bytes into one big integer
(`value = (value << 8n) + BigInt(byte)`), write it in base 62 most
significant digit first, and `padStart(27, "0")` (which never truncates,
only pads). -/
def base62Encode (bytes : List Nat) : List Char :=
  List.replicate (27 - ((digitsLE 62 (hornerVal 256 bytes)).reverse.map char62).length) '0'
    ++ (digitsLE 62 (hornerVal 256 bytes)).reverse.map char62

/-- `generateKsuid` for a clock reading `nowMs` and the 16 random payload
bytes: `timestamp = Math.floor(Date.now() / 1000) - 1400000000`, stored
big-endian in 4 bytes by `DataView.setUint32` (which wraps the JS number
modulo `2^32`), followed by the payload, then base-62 encoded. -/
def generateKsuid (nowMs : Nat) (payload : List Nat) : List Char :=
  let t32 : Nat := ((((nowMs / 1000 : Nat) : Int) - 1400000000) % (2 ^ 32 : Int)).toNat
  base62Encode ([t32 / 2 ^ 24, t32 / 2 ^ 16 % 256, t32 / 2 ^ 8 % 256, t32 % 256]
    ++ payload)

/-- Modelled from the spec (claim C5): the 4-byte big-endian encoding of
a 32-bit value. -/
def beBytes4 (t : Nat) : List Nat :=
  [t / 2 ^ 24 % 256, t / 2 ^ 16 % 256, t / 2 ^ 8 % 256, t % 256]

/-- The v1/v6 timestamp branch of `parseUuidDetails`, on the 32 hex-digit
values of the dash-stripped UUID: `BigInt("0x" + hex.slice(i, j))` is the
base-16 value of the digit sublist, and the final `unix100ns / 10000n`
BigInt division truncates toward zero (`Int.tdiv`).  Versions other than
1, 6, 7 report no timestamp; v7 is omitted here because claim C6 only
covers v1 and v6. -/
def parseUuidTimestamp (u : List Nat) (version : Nat) : Option Int :=
  if version = 1 then
    let timeLow := hornerVal 16 (u.take 8)
    let timeMid := hornerVal 16 ((u.drop 8).take 4)
    let timeHigh := hornerVal 16 ((u.drop 12).take 4) &&& 0xfff
    let timestamp := (timeHigh <<< 48) ||| (timeMid <<< 32) ||| timeLow
    some (Int.tdiv ((timestamp : Int) - 0x01b21dd213814000) 10000)
  else if version = 6 then
    let timeHigh := hornerVal 16 (u.take 12)
    let timeLow := hornerVal 16 ((u.drop 12).take 4) &&& 0xfff
    let timestamp := (timeHigh <<< 12) ||| timeLow
    some (Int.tdiv ((timestamp : Int) - 0x01b21dd213814000) 10000)
  else none

/-- Modelled from the spec (claim C6): the v1 60-bit timestamp — the low
12 bits of time-hi-and-version, then time-mid, then time-low. -/
def uuidV1Ts60 (u : List Nat) : Nat :=
  (hornerVal 16 ((u.drop 12).take 4) % 4096) * 2 ^ 48 +
    hornerVal 16 ((u.drop 8).take 4) * 2 ^ 32 + hornerVal 16 (u.take 8)

/-- Modelled from the spec (claim C6): the v6 sortable big-endian field
order — 32 bits of time-high, 16 bits of time-mid, then the low 12 bits
of the version field. -/
def uuidV6Ts60 (u : List Nat) : Nat :=
  hornerVal 16 (u.take 8) * 2 ^ 28 +
    hornerVal 16 ((u.drop 8).take 4) * 2 ^ 12 +
    hornerVal 16 ((u.drop 12).take 4) % 4096

/-- The Crockford Base32 alphabet of `ulidGenerator` (no `I`, `L`, `O`,
`U`). -/
def crockford : List Char := "0123456789ABCDEFGHJKMNPQRSTVWXYZ".toList

def crockfordChar (d : Nat) : Char := crockford.getD d '0'

/-- The `k`-iteration prepend loop of `ulidGenerator`:
`str = ENCODING[time % 32] + str; time = Math.floor(time / 32)`,
producing the `k` time characters most significant first (the source
runs it with `k = 10`). -/
def ulidTimeChars : Nat → Nat → List Char
  | 0, _ => []
  | k + 1, time => ulidTimeChars k (time / 32) ++ [crockfordChar (time % 32)]

/-- The 16 random tail characters of `ulidGenerator`:
`ENCODING[random[j % 10] % 32]` for `j = 0..15` over the 10 random
bytes. -/
def ulidTail (random : List Nat) : List Char :=
  (List.range 16).map (fun j => crockfordChar (random.getD (j % 10) 0 % 32))

/-- One ULID of `ulidGenerator` (upper-case default), for the clock
reading `now` and the 10 random bytes drawn in that loop iteration. -/
def ulidString (now : Nat) (random : List Nat) : String :=
  ⟨ulidTimeChars 10 now ++ ulidTail random⟩

theorem digitsLEAux_eq_digits (b : Nat) (hb : 2 ≤ b) :
    ∀ fuel n, n ≤ fuel → digitsLEAux b fuel n = Nat.digits b n := by
  intro fuel
  induction fuel with
  | zero =>
    intro n hn
    interval_cases n
    simp [digitsLEAux]
  | succ fuel ih =>
    intro n hn
    by_cases h0 : n = 0
    · subst h0; simp [digitsLEAux]
    · have hlt : n / b < n := Nat.div_lt_self (Nat.pos_of_ne_zero h0) hb
      rw [digitsLEAux, if_neg h0, ih (n / b) (by omega),
        Nat.digits_def' (by omega : 1 < b) (Nat.pos_of_ne_zero h0)]

theorem digitsLE_eq_digits (b n : Nat) (hb : 2 ≤ b) :
    digitsLE b n = Nat.digits b n :=
  digitsLEAux_eq_digits b hb n n le_rfl

theorem hornerVal_nil (b : Nat) : hornerVal b [] = 0 := rfl

theorem foldl_horner (b : Nat) (l : List Nat) (a : Nat) :
    l.foldl (fun acc d => acc * b + d) a = a * b ^ l.length + hornerVal b l := by
  induction l generalizing a with
  | nil => simp [hornerVal]
  | cons d t ih =>
    simp only [List.foldl_cons, List.length_cons, hornerVal]
    rw [ih (a * b + d), ih (0 * b + d)]
    ring

theorem hornerVal_cons (b d : Nat) (l : List Nat) :
    hornerVal b (d :: l) = d * b ^ l.length + hornerVal b l := by
  simpa [hornerVal] using foldl_horner b l d

theorem hornerVal_append (b : Nat) (l₁ l₂ : List Nat) :
    hornerVal b (l₁ ++ l₂) = hornerVal b l₁ * b ^ l₂.length + hornerVal b l₂ := by
  simp only [hornerVal, List.foldl_append]
  exact foldl_horner b l₂ (List.foldl (fun acc d => acc * b + d) 0 l₁)

theorem hornerVal_eq_ofDigits (b : Nat) (l : List Nat) :
    hornerVal b l = Nat.ofDigits b l.reverse := by
  induction l using List.reverseRecOn with
  | nil => simp [hornerVal, Nat.ofDigits]
  | append_singleton t d ih =>
    rw [hornerVal_append, List.reverse_append]
    simp only [List.reverse_cons, List.reverse_nil, List.nil_append,
      List.singleton_append, Nat.ofDigits_cons, List.length_singleton, pow_one]
    rw [← ih]
    simp [hornerVal]
    ring

theorem hornerVal_lt (b : Nat) (l : List Nat) (hb : 1 < b)
    (h : ∀ d ∈ l, d < b) : hornerVal b l < b ^ l.length := by
  rw [hornerVal_eq_ofDigits]
  have := Nat.ofDigits_lt_base_pow_length hb (l := l.reverse)
    (fun x hx => h x (List.mem_reverse.mp hx))
  simpa using this

theorem hornerVal_replicate_zero (b z : Nat) :
    hornerVal b (List.replicate z 0) = 0 := by
  induction z with
  | zero => rfl
  | succ z ih => rw [List.replicate_succ, hornerVal_cons, ih]; simp

theorem hornerVal_replicate_zero_append (b z : Nat) (l : List Nat) :
    hornerVal b (List.replicate z 0 ++ l) = hornerVal b l := by
  rw [hornerVal_append, hornerVal_replicate_zero]
  simp

theorem hornerVal_digitsLE_reverse (b n : Nat) (hb : 2 ≤ b) :
    hornerVal b ((digitsLE b n).reverse) = n := by
  rw [digitsLE_eq_digits b n hb, hornerVal_eq_ofDigits, List.reverse_reverse,
    Nat.ofDigits_digits]

theorem digitsLE_lt_base (b n : Nat) (hb : 2 ≤ b) :
    ∀ d ∈ digitsLE b n, d < b := by
  rw [digitsLE_eq_digits b n hb]
  intro d hd
  exact Nat.digits_lt_base (by omega) hd

theorem digitsLE_length_le (b n k : Nat) (hb : 2 ≤ b) (h : n < b ^ k) :
    (digitsLE b n).length ≤ k := by
  rw [digitsLE_eq_digits b n hb]
  by_cases h0 : n = 0
  · subst h0; simp
  · rw [Nat.digits_len b n (by omega) h0]
    have := Nat.log_lt_of_lt_pow h0 h
    omega

theorem digitsLE_of_hornerVal (b : Nat) (l : List Nat) (hb : 2 ≤ b)
    (hlt : ∀ d ∈ l, d < b) (hhead : ∀ h : l ≠ [], l.head h ≠ 0) :
    digitsLE b (hornerVal b l) = l.reverse := by
  rw [hornerVal_eq_ofDigits, digitsLE_eq_digits _ _ hb]
  apply Nat.digits_ofDigits b (by omega)
  · intro d hd
    exact hlt d (List.mem_reverse.mp hd)
  · intro hne
    have hl : l ≠ [] := by
      intro h; subst h; simp at hne
    rw [List.getLast_reverse]
    exact hhead hl

theorem digitChars_length : digitChars.length = 36 := by decide

theorem mem_digitChars_of_digitVal_lt {c : Char} (h : digitVal c < 36) :
    c ∈ digitChars := by
  rw [← digitChars_length] at h
  exact List.indexOf_lt_length.mp h

theorem digitChar_digitVal {c : Char} (h : c ∈ digitChars) :
    digitChar (digitVal c) = c := by
  have hlt : digitVal c < digitChars.length := List.indexOf_lt_length.mpr h
  rw [digitChar, List.getD_eq_get _ _ hlt]
  exact List.indexOf_get hlt

theorem digitVal_zero_imp {c : Char} (hm : c ∈ digitChars) :
    digitVal c = 0 → c = '0' := by
  fin_cases hm <;> decide

theorem parseDigitsAux_ok (base : Nat) (l : List Char)
    (h : ∀ c ∈ l, digitVal c < base) : ∀ a,
    parseDigitsAux base a l =
      .ok (List.foldl (fun acc c => acc * base + digitVal c) a l) := by
  induction l with
  | nil => intro a; rfl
  | cons c rest ih =>
    intro a
    rw [parseDigitsAux, if_pos (h c (List.mem_cons_self c rest))]
    exact ih (fun x hx => h x (List.mem_cons_of_mem c hx)) _

theorem parseDigitsAux_err (base : Nat) (l : List Char)
    (h : ∃ c ∈ l, ¬ digitVal c < base) : ∀ a,
    parseDigitsAux base a l = .error .invalidDigit := by
  induction l with
  | nil => simp at h
  | cons c rest ih =>
    intro a
    by_cases hc : digitVal c < base
    · rw [parseDigitsAux, if_pos hc]
      apply ih
      rcases h with ⟨x, hx, hxv⟩
      rcases List.mem_cons.mp hx with h1 | h2
      · exact absurd (h1 ▸ hc) hxv
      · exact ⟨x, h2, hxv⟩
    · rw [parseDigitsAux, if_neg hc]

theorem parseDigitsAux_horner (base : Nat) (l : List Char)
    (h : ∀ c ∈ l, digitVal c < base) :
    parseDigitsAux base 0 l = .ok (hornerVal base (l.map digitVal)) := by
  rw [parseDigitsAux_ok base l h 0, hornerVal, List.foldl_map]

/-- Claim C8: `parse(text, base)` fails with `InvalidDigit` exactly when the
cleaned input is non-empty, the base is in 2..36, and some character is not
a valid digit for the base; with `EmptyInput` exactly when the input is
blank after cleaning; with `UnsupportedBase` exactly when the input is
non-blank and the base lies outside 2..36 (the blank check runs first in
the source); and succeeds on every other input. -/
theorem parseBigInt_error_taxonomy (s : List Char) (base : Nat) :
    (parseBigInt s base = .error .emptyInput ↔ normalizeDigits s = []) ∧
    (parseBigInt s base = .error .unsupportedBase ↔
      normalizeDigits s ≠ [] ∧ (base < 2 ∨ 36 < base)) ∧
    (parseBigInt s base = .error .invalidDigit ↔
      normalizeDigits s ≠ [] ∧ 2 ≤ base ∧ base ≤ 36 ∧
        ∃ c ∈ normalizeDigits s, ¬ digitVal c < base) ∧
    ((∃ v, parseBigInt s base = .ok v) ↔
      normalizeDigits s ≠ [] ∧ 2 ≤ base ∧ base ≤ 36 ∧
        ∀ c ∈ normalizeDigits s, digitVal c < base) := by
  have hcl : ((s.filter (fun c => !isJsSpace c)).map Char.toLower)
      = normalizeDigits s := rfl
  by_cases hemp : normalizeDigits s = []
  · rw [parseBigInt]
    rw [hcl, if_pos (List.isEmpty_iff.mpr hemp)]
    refine ⟨by simp [hemp], by simp [hemp], by simp [hemp], ?_⟩
    simp [hemp]
  · rw [parseBigInt, hcl, if_neg (by simp [List.isEmpty_iff, hemp])]
    by_cases hbase : base < 2 ∨ 36 < base
    · rw [if_pos (by simpa [decide_eq_true_eq, Bool.or_eq_true] using hbase)]
      refine ⟨⟨fun h => by simp at h, fun h => absurd h hemp⟩,
        ⟨fun _ => ⟨hemp, hbase⟩, fun _ => rfl⟩, ?_, ?_⟩
      · constructor
        · intro h; simp at h
        · rintro ⟨-, h2, h3, -⟩
          rcases hbase with h | h <;> omega
      · constructor
        · rintro ⟨v, hv⟩; simp at hv
        · rintro ⟨-, h2, h3, -⟩
          rcases hbase with h | h <;> omega
    · rw [if_neg (by simpa [decide_eq_true_eq, Bool.or_eq_true] using hbase)]
      push_neg at hbase
      by_cases hdig : ∀ c ∈ normalizeDigits s, digitVal c < base
      · rw [parseDigitsAux_horner base _ hdig]
        refine ⟨⟨fun h => by simp at h, fun h => absurd h hemp⟩, ?_, ?_, ?_⟩
        · constructor
          · intro h; simp at h
          · rintro ⟨-, hb⟩
            rcases hb with h | h <;> omega
        · constructor
          · intro h; simp at h
          · rintro ⟨-, -, -, x, hx, hxv⟩
            exact absurd (hdig x hx) hxv
        · exact ⟨fun _ => ⟨hemp, by omega, by omega, hdig⟩, fun _ => ⟨_, rfl⟩⟩
      · push_neg at hdig
        rcases hdig with ⟨x, hx, hxv⟩
        rw [parseDigitsAux_err base _ ⟨x, hx, by omega⟩ 0]
        refine ⟨⟨fun h => by simp at h, fun h => absurd h hemp⟩, ?_, ?_, ?_⟩
        · constructor
          · intro h; simp at h
          · rintro ⟨-, hb⟩
            rcases hb with h | h <;> omega
        · constructor
          · intro _; exact ⟨hemp, by omega, by omega, x, hx, by omega⟩
          · intro _; rfl
        · constructor
          · rintro ⟨v, hv⟩; simp at hv
          · rintro ⟨-, -, -, hall⟩
            exact absurd (hall x hx) (by omega)

/-- Witness for C8: `"z"` is not a binary digit, so parsing it in base 2
reports the invalid-digit failure. -/
theorem parseBigInt_error_taxonomy_witness :
    parseBigInt ['z'] 2 = .error .invalidDigit :=
  (parseBigInt_error_taxonomy ['z'] 2).2.2.1.mpr (by decide)

/-- Counterexample for C2 as stated: `"00"` is a valid base-10 digit
string, its normalization is `"00"`, but parse-then-format returns
`"0"`. -/
theorem parse_format_not_normalize_counterexample :
    parseBigInt ['0', '0'] 10 = .ok 0 ∧ formatBigInt 0 10 = ['0'] ∧
    normalizeDigits ['0', '0'] = ['0', '0'] ∧ (['0'] : List Char) ≠ ['0', '0'] := by
  refine ⟨?_, by decide, by decide, by decide⟩
  rfl

theorem format_horner_cons (base : Nat) (hb2 : 2 ≤ base) (hb36 : base ≤ 36)
    (c : Char) (t : List Char)
    (hvalid : ∀ x ∈ c :: t, digitVal x < base) (hc : c ≠ '0') :
    formatBigInt (hornerVal base ((c :: t).map digitVal)) base = c :: t := by
  have hmem : ∀ x ∈ c :: t, x ∈ digitChars := fun x hx =>
    mem_digitChars_of_digitVal_lt (lt_of_lt_of_le (hvalid x hx) hb36)
  have hvals : ∀ d ∈ (c :: t).map digitVal, d < base := by
    intro d hd
    rcases List.mem_map.mp hd with ⟨x, hx, rfl⟩
    exact hvalid x hx
  have hcv : digitVal c ≠ 0 := fun hz =>
    hc (digitVal_zero_imp (hmem c (List.mem_cons_self c t)) hz)
  have hheadne : ∀ h : (c :: t).map digitVal ≠ [],
      ((c :: t).map digitVal).head h ≠ 0 := by
    intro h
    simpa using hcv
  have hv0 : hornerVal base ((c :: t).map digitVal) ≠ 0 := by
    rw [List.map_cons, hornerVal_cons]
    have h2 : 0 < base ^ (t.map digitVal).length := Nat.pos_pow_of_pos _ (by omega)
    have := Nat.mul_pos (Nat.pos_of_ne_zero hcv) h2
    omega
  rw [formatBigInt, if_neg hv0,
    digitsLE_of_hornerVal base _ (by omega) hvals hheadne,
    List.map_reverse, List.reverse_reverse, List.map_map]
  have hid : ∀ x ∈ c :: t, (digitChar ∘ digitVal) x = id x := by
    intro x hx
    simp only [Function.comp_apply, id_eq]
    exact digitChar_digitVal (hmem x hx)
  rw [List.map_congr_left hid, List.map_id]

/-- Claim C2 (amended): for a base in 2..36 and a digit string that is
valid in that base and, after normalization, carries no leading zero
(it is `"0"` itself or starts with a non-zero digit), Horner parsing
followed by divmod formatting returns exactly the normalized input. -/
theorem parse_format_roundtrip (s : List Char) (base : Nat)
    (hb2 : 2 ≤ base) (hb36 : base ≤ 36)
    (hne : normalizeDigits s ≠ [])
    (hvalid : ∀ c ∈ normalizeDigits s, digitVal c < base)
    (hlead : normalizeDigits s = ['0'] ∨ (normalizeDigits s).headI ≠ '0') :
    ∃ v, parseBigInt s base = .ok v ∧ formatBigInt v base = normalizeDigits s := by
  have hcl : ((s.filter (fun c => !isJsSpace c)).map Char.toLower)
      = normalizeDigits s := rfl
  have hparse : parseBigInt s base
      = .ok (hornerVal base ((normalizeDigits s).map digitVal)) := by
    rw [parseBigInt, hcl, if_neg (by simp [List.isEmpty_iff, hne]),
      if_neg (by simp; omega)]
    exact parseDigitsAux_horner base _ hvalid
  refine ⟨_, hparse, ?_⟩
  rcases hlead with h0 | hh
  · rw [h0]
    have hz : hornerVal base (List.map digitVal ['0']) = 0 := by
      have hd0 : digitVal '0' = 0 := by decide
      simp [hornerVal, hd0]
    rw [hz]
    rfl
  · rcases hcons : normalizeDigits s with _ | ⟨c, t⟩
    · exact absurd hcons hne
    · rw [hcons] at hvalid hh
      simp only [List.headI_cons] at hh
      exact format_horner_cons base hb2 hb36 c t hvalid hh

theorem hexdigit_facts : ∀ d : Nat, d < 16 →
    isHexDigitChar (digitChar d) = true ∧ isJsSpace (digitChar d) = false ∧
    digitChar d ≠ 'x' ∧ digitChar d ≠ 'X' ∧ hexVal (digitChar d) = d := by
  decide

theorem strip0x_eq_self : ∀ l : List Char,
    (∀ c ∈ l, c ≠ 'x' ∧ c ≠ 'X') → strip0x l = l
  | [], _ => rfl
  | [_], _ => rfl
  | c₁ :: c₂ :: rest, h => by
    have h2 := h c₂ (by simp)
    rw [strip0x, if_neg (by tauto)]
    rw [strip0x_eq_self (c₂ :: rest) (fun c hc => h c (List.mem_cons_of_mem _ hc))]

theorem bytesToHex_cons (b : Nat) (t : List Nat) :
    bytesToHex (b :: t) = digitChar (b / 16) :: digitChar (b % 16)
      :: bytesToHex t := rfl

theorem bytesToHex_chars (bytes : List Nat) (h : ∀ b ∈ bytes, b < 256) :
    ∀ c ∈ bytesToHex bytes,
      isHexDigitChar c = true ∧ isJsSpace c = false ∧ c ≠ 'x' ∧ c ≠ 'X' := by
  intro c hc
  rcases List.mem_flatMap.mp hc with ⟨b, hb, hcb⟩
  have hb256 := h b hb
  have hd : ∀ d : Nat, d < 16 → c = digitChar d →
      isHexDigitChar c = true ∧ isJsSpace c = false ∧ c ≠ 'x' ∧ c ≠ 'X' := by
    intro d hdlt hceq
    obtain ⟨h1, h2, h3, h4, -⟩ := hexdigit_facts d hdlt
    exact ⟨hceq ▸ h1, hceq ▸ h2, hceq ▸ h3, hceq ▸ h4⟩
  simp only [List.mem_cons, List.not_mem_nil, or_false] at hcb
  rcases hcb with hcb | hcb
  · exact hd (b / 16) (Nat.div_lt_of_lt_mul (by omega)) hcb
  · exact hd (b % 16) (Nat.mod_lt _ (by omega)) hcb

theorem bytesToHex_length (bytes : List Nat) :
    (bytesToHex bytes).length = 2 * bytes.length := by
  induction bytes with
  | nil => rfl
  | cons b t ih =>
    rw [bytesToHex_cons]
    simp only [List.length_cons, ih]
    omega

theorem hexPairsToBytes_bytesToHex (bytes : List Nat)
    (h : ∀ b ∈ bytes, b < 256) :
    hexPairsToBytes (bytesToHex bytes) = bytes := by
  induction bytes with
  | nil => rfl
  | cons b t ih =>
    have hb := h b (List.mem_cons_self b t)
    have hhi := (hexdigit_facts (b / 16) (Nat.div_lt_of_lt_mul (by omega))).2.2.2.2
    have hlo := (hexdigit_facts (b % 16) (Nat.mod_lt _ (by omega))).2.2.2.2
    rw [bytesToHex_cons, hexPairsToBytes, hhi, hlo,
      ih (fun x hx => h x (List.mem_cons_of_mem b hx))]
    congr 1
    omega

/-- Claim C3: hex-decoding a hex-encoding is the identity on byte strings
of length up to 256, and the concrete `"A"`-to-`"41"` pair behaves as the
spec states (`'A'` is byte 65). -/
theorem hex_roundtrip :
    (∀ bytes : List Nat, (∀ b ∈ bytes, b < 256) → bytes.length ≤ 256 →
      hexToBytes (bytesToHex bytes) = .ok bytes) ∧
    bytesToHex [Char.toNat 'A'] = ['4', '1'] ∧
    hexToBytes ['4', '1'] = .ok [Char.toNat 'A'] := by
  refine ⟨?_, rfl, rfl⟩
  intro bytes hb _
  have hchars := bytesToHex_chars bytes hb
  have hstrip : strip0x (bytesToHex bytes) = bytesToHex bytes :=
    strip0x_eq_self _ (fun c hc => ⟨(hchars c hc).2.2.1, (hchars c hc).2.2.2⟩)
  have hfilter : (bytesToHex bytes).filter (fun c => !isJsSpace c)
      = bytesToHex bytes :=
    List.filter_eq_self.mpr (fun c hc => by
      rw [(hchars c hc).2.1]; rfl)
  cases bytes with
  | nil => rfl
  | cons b t =>
    rw [hexToBytes]
    simp only [hstrip, hfilter]
    rw [if_neg, if_pos, if_pos]
    · rw [hexPairsToBytes_bytesToHex _ hb]
    · rw [bytesToHex_length]
      omega
    · exact List.all_eq_true.mpr (fun c hc => (hchars c hc).1)
    · rw [bytesToHex_cons]
      simp

/-- Witness for C3: a concrete three-byte round trip through the hex
codec. -/
theorem hex_roundtrip_witness :
    hexToBytes (bytesToHex [0, 171, 255]) = .ok [0, 171, 255] :=
  hex_roundtrip.1 [0, 171, 255] (by decide) (by decide)

/-- Witness for C2: parsing and re-formatting `"1 fF"` in base 16 yields
its normalization `"1ff"`. -/
theorem parse_format_roundtrip_witness :
    ∃ v, parseBigInt ['1', ' ', 'f', 'F'] 16 = .ok v ∧
      formatBigInt v 16 = normalizeDigits ['1', ' ', 'f', 'F'] :=
  parse_format_roundtrip ['1', ' ', 'f', 'F'] 16 (by decide) (by decide)
    (by decide) (by decide) (Or.inr (by decide))

theorem char58_facts : ∀ d : Nat, d < 58 →
    char58 d ∈ alphabet58 ∧ val58 (char58 d) = d ∧
    (char58 d = '1' ↔ d = 0) := by
  decide

theorem alphabet58_not_space : ∀ c ∈ alphabet58, isJsSpace c = false := by
  decide

theorem contains58 {c : Char} (h : c ∈ alphabet58) :
    alphabet58.contains c = true :=
  List.elem_iff.mpr h

theorem takeWhile_replicate_append {α : Type} (p : α → Bool) (a : α) (z : Nat)
    (t : List α) (hpa : p a = true)
    (ht : ∀ x, t.head? = some x → p x = false) :
    (List.replicate z a ++ t).takeWhile p = List.replicate z a := by
  induction z with
  | zero =>
    cases t with
    | nil => rfl
    | cons x xs =>
      simp only [List.replicate, List.nil_append, List.takeWhile_cons]
      rw [ht x rfl]
      rfl
  | succ z ih =>
    rw [List.replicate_succ, List.cons_append, List.takeWhile_cons, if_pos hpa,
      ih]

theorem digitsLE_getLast?_spec (b v : Nat) (hb : 2 ≤ b) (hv : v ≠ 0) :
    ∃ d, (digitsLE b v).getLast? = some d ∧ d ≠ 0 ∧ d < b := by
  rw [digitsLE_eq_digits _ _ hb]
  have hne : Nat.digits b v ≠ [] := Nat.digits_ne_nil_iff_ne_zero.mpr hv
  exact ⟨(Nat.digits b v).getLast hne, List.getLast?_eq_getLast _ hne,
    Nat.getLast_digit_ne_zero b hv,
    Nat.digits_lt_base (by omega) (List.getLast_mem hne)⟩

theorem takeWhile_zero_replicate (bs : List Nat) :
    bs.takeWhile (fun b => b == 0)
      = List.replicate ((bs.takeWhile (fun b => b == 0)).length) 0 :=
  List.eq_replicate_of_mem (fun x hx => by
    simpa using List.mem_takeWhile_imp hx)

theorem b58encode_split (bs : List Nat) :
    b58encode bs = List.replicate ((bs.takeWhile (fun b => b == 0)).length) '1'
      ++ (digitsLE 58 (hornerVal 256 bs)).reverse.map char58 := rfl

theorem b58encode_mem (bs : List Nat) :
    ∀ c ∈ b58encode bs, c ∈ alphabet58 := by
  intro c hc
  rw [b58encode_split] at hc
  rcases List.mem_append.mp hc with hc | hc
  · rw [List.eq_of_mem_replicate hc]
    decide
  · rcases List.mem_map.mp hc with ⟨d, hd, rfl⟩
    have hdlt : d < 58 :=
      digitsLE_lt_base 58 _ (by omega) d (List.mem_reverse.mp hd)
    exact (char58_facts d hdlt).1

theorem b58decode_b58encode (bs : List Nat) (h : ∀ b ∈ bs, b < 256) :
    b58decode (b58encode bs) = .ok bs := by
  have hall : (b58encode bs).all (fun c => alphabet58.contains c) = true :=
    List.all_eq_true.mpr (fun c hc => contains58 (b58encode_mem bs c hc))
  rw [b58decode, if_pos hall]
  have hsplit : List.replicate ((bs.takeWhile (fun b => b == 0)).length) 0
      ++ bs.dropWhile (fun b => b == 0) = bs := by
    conv_rhs => rw [← List.takeWhile_append_dropWhile (fun b => b == 0) bs]
    rw [← takeWhile_zero_replicate]
  have hval : hornerVal 256 bs
      = hornerVal 256 (bs.dropWhile (fun b => b == 0)) := by
    conv_lhs => rw [← hsplit]
    rw [hornerVal_replicate_zero_append]
  have hrest_lt : ∀ b ∈ bs.dropWhile (fun b => b == 0), b < 256 :=
    fun b hb => h b (List.Sublist.mem hb (List.dropWhile_sublist _))
  have hrest_head : ∀ hne : bs.dropWhile (fun b => b == 0) ≠ [],
      (bs.dropWhile (fun b => b == 0)).head hne ≠ 0 := by
    intro hne
    have := List.head_dropWhile_not (fun b => b == 0) bs hne
    simpa using this
  have hdigit_head : ∀ x : Char,
      ((digitsLE 58 (hornerVal 256 bs)).reverse.map char58).head? = some x →
      (x == '1') = false := by
    intro x hx
    by_cases hv : hornerVal 256 bs = 0
    · rw [hv, show digitsLE 58 0 = [] from rfl] at hx
      exact Option.noConfusion hx
    · rcases digitsLE_getLast?_spec 58 _ (by omega) hv with ⟨d, hd, hd0, hdlt⟩
      rw [List.head?_map, List.head?_reverse, hd] at hx
      simp only [Option.map_some', Option.some.injEq] at hx
      have hne1 : char58 d ≠ '1' := fun h1 => hd0 (((char58_facts d hdlt).2.2).mp h1)
      rw [← hx]
      exact beq_eq_false_iff_ne.mpr hne1
  rw [b58encode_split,
    takeWhile_replicate_append (fun c => c == '1') '1' _ _ rfl hdigit_head,
    List.length_replicate, List.map_append, List.map_replicate]
  have hv1 : val58 '1' = 0 := by decide
  rw [hv1, List.map_map]
  have hmapid : ((digitsLE 58 (hornerVal 256 bs)).reverse.map (val58 ∘ char58))
      = (digitsLE 58 (hornerVal 256 bs)).reverse := by
    have : ∀ d ∈ (digitsLE 58 (hornerVal 256 bs)).reverse,
        (val58 ∘ char58) d = id d := by
      intro d hd
      have hdlt : d < 58 :=
        digitsLE_lt_base 58 _ (by omega) d (List.mem_reverse.mp hd)
      simp only [Function.comp_apply, id_eq]
      exact (char58_facts d hdlt).2.1
    rw [List.map_congr_left this, List.map_id]
  rw [hmapid, hornerVal_replicate_zero_append,
    hornerVal_digitsLE_reverse 58 _ (by omega), hval,
    digitsLE_of_hornerVal 256 _ (by omega) hrest_lt hrest_head,
    List.reverse_reverse, hsplit]

theorem dropWhile_eq_self_of {α : Type} (p : α → Bool) (l : List α)
    (h : ∀ c ∈ l, p c = false) : l.dropWhile p = l :=
  List.dropWhile_eq_self_iff.mpr (fun hl => by
    rw [h _ (List.get_mem l 0 hl)]
    simp)

theorem jsTrim_eq_self (l : List Char) (h : ∀ c ∈ l, isJsSpace c = false) :
    jsTrim l = l := by
  rw [jsTrim, dropWhile_eq_self_of _ _ h,
    dropWhile_eq_self_of _ _ (fun c hc => h c (List.mem_reverse.mp hc)),
    List.reverse_reverse]

theorem constDigest_spec : DigestSpec constDigest := by
  intro bs
  refine ⟨by simp [constDigest], fun b hb => ?_⟩
  have := List.mem_range.mp (by simpa [constDigest] using hb)
  omega

/-- Claim C1: Base58Check-encoding any non-empty byte string (payload
plus the first 4 bytes of the double digest) and decoding the result
succeeds and returns the original payload with `valid = true`, for any
digest function with 32-byte byte-valued output. -/
theorem base58check_roundtrip (digest : List Nat → List Nat) (p : List Nat)
    (hd : DigestSpec digest) (hp : p ≠ []) (hb : ∀ b ∈ p, b < 256) :
    base58checkDecode digest (base58checkEncode digest p) = .ok ⟨p, true⟩ := by
  have hck_lt : ∀ b ∈ (digest (digest p)).take 4, b < 256 := fun b hb' =>
    (hd (digest p)).2 b (List.mem_of_mem_take hb')
  have hdata_lt : ∀ b ∈ p ++ (digest (digest p)).take 4, b < 256 := by
    intro b hb'
    rcases List.mem_append.mp hb' with h1 | h1
    exacts [hb b h1, hck_lt b h1]
  have hcklen : ((digest (digest p)).take 4).length = 4 := by
    rw [List.length_take]
    have := (hd (digest p)).1
    omega
  have hlen : (p ++ (digest (digest p)).take 4).length = p.length + 4 := by
    rw [List.length_append, hcklen]
  have hplen : 0 < p.length := List.length_pos.mpr hp
  have htrim : jsTrim (b58encode (p ++ (digest (digest p)).take 4))
      = b58encode (p ++ (digest (digest p)).take 4) :=
    jsTrim_eq_self _ (fun c hc => alphabet58_not_space c (b58encode_mem _ c hc))
  rw [base58checkDecode, base58checkEncode, htrim,
    b58decode_b58encode _ hdata_lt]
  show base58checkBody digest (p ++ (digest (digest p)).take 4) = .ok ⟨p, true⟩
  rw [base58checkBody, if_neg (by omega)]
  have hm4 : (p ++ (digest (digest p)).take 4).length - 4 = p.length := by omega
  have htake : (p ++ (digest (digest p)).take 4).take
      ((p ++ (digest (digest p)).take 4).length - 4) = p := by
    rw [hm4, List.take_left]
  have hdrop : (p ++ (digest (digest p)).take 4).drop
      ((p ++ (digest (digest p)).take 4).length - 4)
      = (digest (digest p)).take 4 := by
    rw [hm4, List.drop_left]
  rw [htake, hdrop, beq_self_eq_true]

/-- Witness for C1: the spec's concrete scenario payload `[0x00, 0x01,
0x02]`, with the constant stand-in digest. -/
theorem base58check_roundtrip_witness :
    base58checkDecode constDigest (base58checkEncode constDigest [0, 1, 2])
      = .ok ⟨[0, 1, 2], true⟩ :=
  base58check_roundtrip constDigest [0, 1, 2] constDigest_spec (by decide)
    (by decide)

/-- Claim C9: once the Base58 decode itself succeeded with bytes `d`,
`decodeChecked` fails with `TooShort` exactly when `d` has fewer than 5
bytes; with at least 5 bytes it always returns a result (never an
error), carrying the payload and the checksum verdict. -/
theorem base58checkDecode_taxonomy (digest : List Nat → List Nat)
    (text : List Char) (d : List Nat)
    (hdec : b58decode (jsTrim text) = .ok d) :
    (base58checkDecode digest text = .error .tooShort ↔ d.length < 5) ∧
    (5 ≤ d.length → base58checkDecode digest text =
      .ok ⟨d.take (d.length - 4),
        bytesToHex (d.drop (d.length - 4)) ==
          bytesToHex ((digest (digest (d.take (d.length - 4)))).take 4)⟩) := by
  have heq : base58checkDecode digest text = base58checkBody digest d := by
    rw [base58checkDecode, hdec]
  rw [heq, base58checkBody]
  constructor
  · by_cases h5 : d.length < 5
    · rw [if_pos h5]
      exact ⟨fun _ => h5, fun _ => rfl⟩
    · rw [if_neg h5]
      exact ⟨fun h => by simp at h, fun h => absurd h h5⟩
  · intro h5
    rw [if_neg (by omega)]

/-- Witness for C9: `"1"` Base58-decodes to the single byte `0`, which is
too short for Base58Check. -/
theorem base58checkDecode_taxonomy_witness :
    base58checkDecode constDigest ['1'] = .error .tooShort :=
  (base58checkDecode_taxonomy constDigest ['1'] [0] (by rfl)).1.mpr (by decide)

theorem or_shift_add (x y k : Nat) (hy : y < 2 ^ k) :
    (x <<< k) ||| y = x * 2 ^ k + y := by
  rw [Nat.shiftLeft_eq, Nat.mul_comm x (2 ^ k), ← Nat.mul_add_lt_is_or hy x,
    Nat.mul_comm (2 ^ k) x]

/-- Counterexample for C4 as stated: at `now = 2^42` ms past the epoch
(worker 0, sequence 0) the generator output equals the claim's own
formula yet is `2^64`, not strictly below `2^64` — the 64-bit-range part
of the claim fails. -/
theorem generateSnowflake_counterexample :
    generateSnowflake (2 ^ 42) 0 0 0 = snowflakeClaimFormula (2 ^ 42) 0 0 0 ∧
    ¬ generateSnowflake (2 ^ 42) 0 0 0 < 2 ^ 64 := by
  have hgen : generateSnowflake (2 ^ 42) 0 0 0 = 2 ^ 64 := by
    simp only [generateSnowflake]
    norm_num [Nat.shiftLeft_eq, Nat.zero_shiftLeft, Nat.or_zero, Int.toNat_ofNat]
    decide
  have hspec : snowflakeClaimFormula (2 ^ 42) 0 0 0 = 2 ^ 64 := by
    simp only [snowflakeClaimFormula]
    norm_num [Nat.shiftLeft_eq, Nat.zero_shiftLeft, Nat.or_zero, Int.toNat_ofNat]
  rw [hgen, hspec]
  simp

/-- Claim C4 (amended): for `now ≥ epoch` and a sequence in 0..4095 the
generator returns `((now − epoch) mod 2^53) << 22 | ((workerId mod 1024)
<< 12) | sequence` (the source masks the timestamp to 53 bits), and the
value is strictly below `2^64` — so its text form is the decimal string
of a 64-bit unsigned integer — provided `now − epoch < 2^42`. -/
theorem generateSnowflake_amended (now epoch workerId sequence : Nat)
    (hle : epoch ≤ now) (hseq : sequence < 4096) :
    generateSnowflake now epoch workerId sequence =
      (((now - epoch) % 2 ^ 53) <<< 22) ||| ((workerId % 1024) <<< 12) ||| sequence ∧
    (now - epoch < 2 ^ 42 →
      generateSnowflake now epoch workerId sequence < 2 ^ 64) := by
  have htn : (((now : Int) - (epoch : Int)) % (2 ^ 53 : Int)).toNat
      = (now - epoch) % 2 ^ 53 := by
    omega
  have hdef : generateSnowflake now epoch workerId sequence =
      (((now - epoch) % 2 ^ 53) <<< 22) ||| ((workerId % 1024) <<< 12) ||| sequence := by
    simp only [generateSnowflake, htn]
  refine ⟨hdef, fun h42 => ?_⟩
  rw [hdef]
  have hts : (now - epoch) % 2 ^ 53 < 2 ^ 42 :=
    lt_of_le_of_lt (Nat.mod_le _ _) h42
  apply Nat.or_lt_two_pow
  apply Nat.or_lt_two_pow
  · rw [Nat.shiftLeft_eq]
    calc ((now - epoch) % 2 ^ 53) * 2 ^ 22
        < 2 ^ 42 * 2 ^ 22 := mul_lt_mul_of_pos_right hts (by norm_num)
      _ = 2 ^ 64 := by norm_num
  · rw [Nat.shiftLeft_eq]
    calc (workerId % 1024) * 2 ^ 12
        < 1024 * 2 ^ 12 := mul_lt_mul_of_pos_right (Nat.mod_lt _ (by norm_num)) (by norm_num)
      _ < 2 ^ 64 := by norm_num
  · exact lt_trans hseq (by norm_num)

/-- Witness for C4: a concrete instantiation of the amended Snowflake
statement. -/
theorem generateSnowflake_amended_witness :
    generateSnowflake 5000 1000 3 7 =
      (((5000 - 1000) % 2 ^ 53) <<< 22) ||| ((3 % 1024) <<< 12) ||| 7 ∧
    generateSnowflake 5000 1000 3 7 < 2 ^ 64 :=
  ⟨(generateSnowflake_amended 5000 1000 3 7 (by decide) (by decide)).1,
   (generateSnowflake_amended 5000 1000 3 7 (by decide) (by decide)).2 (by decide)⟩

theorem char62_facts : ∀ d : Nat, d < 62 →
    char62 d ∈ alphabet62 ∧ alphabet62.indexOf (char62 d) = d := by
  decide

theorem base62Encode_spec (bytes : List Nat) (hlen : bytes.length = 20)
    (hb : ∀ b ∈ bytes, b < 256) :
    (base62Encode bytes).length = 27 ∧
    (∀ c ∈ base62Encode bytes, c ∈ alphabet62) ∧
    hornerVal 62 ((base62Encode bytes).map (fun c => alphabet62.indexOf c)) =
      hornerVal 256 bytes := by
  have hv : hornerVal 256 bytes < 62 ^ 27 := by
    have h1 : hornerVal 256 bytes < 256 ^ 20 := by
      rw [← hlen]
      exact hornerVal_lt 256 bytes (by norm_num) hb
    calc hornerVal 256 bytes < 256 ^ 20 := h1
      _ < 62 ^ 27 := by norm_num
  have hdlen : (digitsLE 62 (hornerVal 256 bytes)).length ≤ 27 :=
    digitsLE_length_le 62 _ 27 (by norm_num) hv
  have hdl : ((digitsLE 62 (hornerVal 256 bytes)).reverse.map char62).length ≤ 27 := by
    simpa using hdlen
  refine ⟨?_, ?_, ?_⟩
  · rw [base62Encode, List.length_append, List.length_replicate]
    omega
  · intro c hc
    rw [base62Encode] at hc
    rcases List.mem_append.mp hc with hc | hc
    · rw [List.eq_of_mem_replicate hc]
      decide
    · rcases List.mem_map.mp hc with ⟨d, hd, rfl⟩
      exact (char62_facts d
        (digitsLE_lt_base 62 _ (by norm_num) d (List.mem_reverse.mp hd))).1
  · rw [base62Encode, List.map_append, List.map_replicate, List.map_map]
    have h0 : alphabet62.indexOf '0' = 0 := by decide
    rw [h0]
    have hmapid : (digitsLE 62 (hornerVal 256 bytes)).reverse.map
        ((fun c => alphabet62.indexOf c) ∘ char62)
        = (digitsLE 62 (hornerVal 256 bytes)).reverse := by
      have h62 : ∀ d ∈ (digitsLE 62 (hornerVal 256 bytes)).reverse,
          ((fun c => alphabet62.indexOf c) ∘ char62) d = id d := by
        intro d hd
        simp only [Function.comp_apply, id_eq]
        exact (char62_facts d
          (digitsLE_lt_base 62 _ (by norm_num) d (List.mem_reverse.mp hd))).2
      rw [List.map_congr_left h62, List.map_id]
    rw [hmapid, hornerVal_replicate_zero_append,
      hornerVal_digitsLE_reverse 62 _ (by norm_num)]

/-- Claim C5: a generated KSUID is exactly 27 characters over the base-62
alphabet, left-padded with `'0'`, and the 20-byte value it base-62
encodes is the 4-byte big-endian timestamp `floor(now_ms / 1000) −
1400000000` followed by the 16 random payload bytes (stated for clocks
with a representable offset, i.e. at or after the custom epoch and
before the 32-bit wrap). -/
theorem generateKsuid_spec (nowMs : Nat) (payload : List Nat)
    (hlen : payload.length = 16) (hbytes : ∀ b ∈ payload, b < 256)
    (hepoch : 1400000000 ≤ nowMs / 1000)
    (hrange : nowMs / 1000 - 1400000000 < 2 ^ 32) :
    (generateKsuid nowMs payload).length = 27 ∧
    (∀ c ∈ generateKsuid nowMs payload, c ∈ alphabet62) ∧
    hornerVal 62 ((generateKsuid nowMs payload).map (fun c => alphabet62.indexOf c)) =
      hornerVal 256 (beBytes4 (nowMs / 1000 - 1400000000) ++ payload) := by
  have ht32 : ((((nowMs / 1000 : Nat) : Int) - 1400000000) % (2 ^ 32 : Int)).toNat
      = nowMs / 1000 - 1400000000 := by
    omega
  have hkey : generateKsuid nowMs payload
      = base62Encode (beBytes4 (nowMs / 1000 - 1400000000) ++ payload) := by
    have hh : (nowMs / 1000 - 1400000000) / 2 ^ 24 % 256
        = (nowMs / 1000 - 1400000000) / 2 ^ 24 := by
      omega
    simp only [generateKsuid, ht32, beBytes4, hh]
  rw [hkey]
  apply base62Encode_spec
  · simp [beBytes4, hlen]
  · intro b hb
    rcases List.mem_append.mp hb with hb | hb
    · simp only [beBytes4, List.mem_cons, List.not_mem_nil, or_false] at hb
      rcases hb with h | h | h | h <;> omega
    · exact hbytes b hb

/-- Witness for C5: concrete clock and all-zero payload (length
projection of the instantiated theorem). -/
theorem generateKsuid_spec_witness :
    (generateKsuid 1700000000000 (List.replicate 16 0)).length = 27 :=
  (generateKsuid_spec 1700000000000 (List.replicate 16 0) (by decide) (by decide)
    (by decide) (by decide)).1

theorem mask_fff (a : Nat) : a &&& 0xfff = a % 4096 := by
  have h : (0xfff : Nat) = 2 ^ 12 - 1 := by norm_num
  have h2 : (4096 : Nat) = 2 ^ 12 := by norm_num
  rw [h, h2, Nat.and_pow_two_sub_one_eq_mod]

/-- Claim C6: for any 32-hex-digit UUID, the v1 and v6 branches of
`parseUuidDetails` report the millisecond timestamp
`(ts60 − 0x01B21DD213814000) / 10000` (truncating division), where
`ts60` is the 60-bit timestamp reassembled per that version's field
layout as the spec describes it. -/
theorem parseUuidTimestamp_v1_v6 (u : List Nat) (hlen : u.length = 32)
    (hd : ∀ d ∈ u, d < 16) :
    parseUuidTimestamp u 1 =
      some (Int.tdiv ((uuidV1Ts60 u : Int) - 0x01b21dd213814000) 10000) ∧
    parseUuidTimestamp u 6 =
      some (Int.tdiv ((uuidV6Ts60 u : Int) - 0x01b21dd213814000) 10000) := by
  have hlow : hornerVal 16 (u.take 8) < 2 ^ 32 := by
    have hb := hornerVal_lt 16 (u.take 8) (by norm_num)
      (fun d hd' => hd d (List.mem_of_mem_take hd'))
    have hl : (u.take 8).length = 8 := by simp [List.length_take, hlen]
    rw [hl] at hb
    calc hornerVal 16 (u.take 8) < 16 ^ 8 := hb
      _ = 2 ^ 32 := by norm_num
  have hmid : hornerVal 16 ((u.drop 8).take 4) < 2 ^ 16 := by
    have hb := hornerVal_lt 16 ((u.drop 8).take 4) (by norm_num)
      (fun d hd' => hd d (List.mem_of_mem_drop (List.mem_of_mem_take hd')))
    have hl : ((u.drop 8).take 4).length = 4 := by simp [hlen]
    rw [hl] at hb
    calc hornerVal 16 ((u.drop 8).take 4) < 16 ^ 4 := hb
      _ = 2 ^ 16 := by norm_num
  have hv1 : (hornerVal 16 ((u.drop 12).take 4) &&& 0xfff) <<< 48
      ||| hornerVal 16 ((u.drop 8).take 4) <<< 32 ||| hornerVal 16 (u.take 8)
      = uuidV1Ts60 u := by
    rw [mask_fff, Nat.lor_assoc, or_shift_add _ _ 32 hlow,
      or_shift_add _ _ 48 (by omega), uuidV1Ts60]
    ring
  have hsplit : hornerVal 16 (u.take 12) = hornerVal 16 (u.take 8) * 16 ^ 4
      + hornerVal 16 ((u.drop 8).take 4) := by
    have h12 : (12 : Nat) = 8 + 4 := rfl
    rw [h12, List.take_add, hornerVal_append]
    have hl : ((u.drop 8).take 4).length = 4 := by simp [hlen]
    rw [hl]
  have hv6 : hornerVal 16 (u.take 12) <<< 12
      ||| (hornerVal 16 ((u.drop 12).take 4) &&& 0xfff) = uuidV6Ts60 u := by
    rw [mask_fff, or_shift_add _ _ 12 (by omega), hsplit, uuidV6Ts60]
    ring
  constructor
  · have hif : parseUuidTimestamp u 1
        = some (Int.tdiv
          (((hornerVal 16 ((u.drop 12).take 4) &&& 0xfff) <<< 48
            ||| hornerVal 16 ((u.drop 8).take 4) <<< 32
            ||| hornerVal 16 (u.take 8) : Nat) - 0x01b21dd213814000) 10000) := by
      simp only [parseUuidTimestamp, if_pos]
    rw [hif, hv1]
  · have hif : parseUuidTimestamp u 6
        = some (Int.tdiv
          ((hornerVal 16 (u.take 12) <<< 12
            ||| (hornerVal 16 ((u.drop 12).take 4) &&& 0xfff) : Nat)
            - 0x01b21dd213814000) 10000) := by
      simp only [parseUuidTimestamp]
      norm_num
    rw [hif, hv6]

/-- Witness for C6: the all-zero hex string (timestamp 0 in both
layouts). -/
theorem parseUuidTimestamp_v1_v6_witness :
    parseUuidTimestamp (List.replicate 32 0) 1 =
      some (Int.tdiv ((uuidV1Ts60 (List.replicate 32 0) : Int)
        - 0x01b21dd213814000) 10000) :=
  (parseUuidTimestamp_v1_v6 (List.replicate 32 0) (by decide) (by decide)).1

theorem crockford_mono : ∀ a : Nat, a < 32 → ∀ b : Nat, b < 32 → a < b →
    crockfordChar a < crockfordChar b := by
  decide

theorem ulidTimeChars_length : ∀ k t, (ulidTimeChars k t).length = k
  | 0, _ => rfl
  | k + 1, t => by
    rw [ulidTimeChars, List.length_append, ulidTimeChars_length k (t / 32)]
    rfl

theorem lex_append {l₁ l₂ : List Char} (r₁ r₂ : List Char)
    (hlen : l₁.length = l₂.length) (h : List.Lex (· < ·) l₁ l₂) :
    List.Lex (· < ·) (l₁ ++ r₁) (l₂ ++ r₂) := by
  induction h with
  | nil => simp at hlen
  | cons h' ih => exact List.Lex.cons (ih (by simpa using hlen))
  | rel hr => exact List.Lex.rel hr

theorem lex_append_singleton : ∀ (p : List Char) (c₁ c₂ : Char), c₁ < c₂ →
    List.Lex (· < ·) (p ++ [c₁]) (p ++ [c₂])
  | [], _, _, h => List.Lex.rel h
  | _ :: xs, c₁, c₂, h => List.Lex.cons (lex_append_singleton xs c₁ c₂ h)

theorem ulidTimeChars_lt (k : Nat) : ∀ t₁ t₂, t₁ < t₂ → t₂ < 32 ^ k →
    List.Lex (· < ·) (ulidTimeChars k t₁) (ulidTimeChars k t₂) := by
  induction k with
  | zero =>
    intro t₁ t₂ h12 h2
    rw [pow_zero] at h2
    omega
  | succ k ih =>
    intro t₁ t₂ h12 h2
    have hq2 : t₂ / 32 < 32 ^ k := by
      rw [Nat.div_lt_iff_lt_mul (by norm_num)]
      calc t₂ < 32 ^ (k + 1) := h2
        _ = 32 ^ k * 32 := by rw [pow_succ]
    have hq : t₁ / 32 ≤ t₂ / 32 := Nat.div_le_div_right (le_of_lt h12)
    show List.Lex (· < ·) (ulidTimeChars k (t₁ / 32) ++ [crockfordChar (t₁ % 32)])
      (ulidTimeChars k (t₂ / 32) ++ [crockfordChar (t₂ % 32)])
    rcases lt_or_eq_of_le hq with hlt | heq
    · exact lex_append _ _
        (by rw [ulidTimeChars_length, ulidTimeChars_length]) (ih _ _ hlt hq2)
    · rw [heq]
      have hmod : t₁ % 32 < t₂ % 32 := by omega
      exact lex_append_singleton _ _ _
        (crockford_mono _ (Nat.mod_lt _ (by norm_num)) _
          (Nat.mod_lt _ (by norm_num)) hmod)

/-- Claim C7: two ULIDs generated with the wall clock strictly advancing
between the calls (timestamps below 2^48 ms) compare strictly in
lexicographic string order, whatever random bytes each call drew. -/
theorem ulid_monotone (t₁ t₂ : Nat) (r₁ r₂ : List Nat)
    (h12 : t₁ < t₂) (h48 : t₂ < 2 ^ 48) :
    ulidString t₁ r₁ < ulidString t₂ r₂ := by
  refine String.lt_iff_toList_lt.mpr ?_
  show List.Lex (· < ·) (ulidTimeChars 10 t₁ ++ ulidTail r₁)
    (ulidTimeChars 10 t₂ ++ ulidTail r₂)
  apply lex_append _ _ (by rw [ulidTimeChars_length, ulidTimeChars_length])
  exact ulidTimeChars_lt 10 t₁ t₂ h12 (lt_trans h48 (by norm_num))

/-- Witness for C7: clock advancing from 0 to 1 ms, all-zero random
bytes. -/
theorem ulid_monotone_witness :
    ulidString 0 (List.replicate 10 0) < ulidString 1 (List.replicate 10 0) :=
  ulid_monotone 0 1 (List.replicate 10 0) (List.replicate 10 0) (by decide)
    (by decide)

/-- Claim C10: in every ULID the hand-rolled generator produces, the six
characters at positions 20–25 repeat the six characters at positions
10–15, because tail character `j` is drawn from random byte `j mod 10` —
so the random tail carries at most 50 bits of entropy. -/
theorem ulid_tail_repeats (now : Nat) (random : List Nat) :
    ((ulidString now random).data.drop 20).take 6 =
      ((ulidString now random).data.drop 10).take 6 := rfl
